import Mathlib

/-!
Verification of the comment-threading core of the discussion platform.

The embedded code is the function buildCommentTree from
src/components/CommentSection.tsx together with the derived counts of the
CommentSection component, the submission guards of createComment
(CommentSection.tsx) and createReply (CommentItem.tsx), and, for the
refinement claim, the reference two-pass algorithm stated by the design
document.

Modelling notes for buildCommentTree.  The JavaScript builds a Map from id
to a mutable node wrapper (first pass, later writes overwrite earlier ones)
and then, for each input comment in order, pushes the node of its id either
into the children array of the node of its truthy parent id (when that node
exists in the map) or, when the parent id is falsy (null or 0), into the
roots array; a comment with a truthy parent id that is absent from the map
is pushed nowhere.  Because the nodes are shared references, the value
finally returned is fully determined by three observations of the final
state: the node fields of an id (the last input comment carrying that id),
the sequence of child ids finally pushed into the node of an id (the input
comments with that truthy parent id, in input order), and the sequence of
root ids (the input comments with falsy parent id, in input order).  The
functions mapLookup, childComments and buildCommentTree below read the
returned object graph off these three observations, unfolding it to a tree
with a fuel argument equal to the input length.  For inputs with pairwise
distinct ids the part of the graph reachable from the roots is acyclic with
depth strictly below the input length (each node reachable from a root has
pairwise distinct ancestors), so the fuel never truncates anything that the
JavaScript value contains and the unfolding is exact.
-/

namespace CommentTreeSpec

/-- The Comment record interface of CommentSection.tsx. -/
structure Comment where
  id : Int
  post_id : Int
  parent_comment_id : Option Int
  content : String
  user_id : String
  created_at : String
  author : String
deriving DecidableEq, Repr

/-- JavaScript truthiness of the parent_comment_id field: null (absent) and
0 are falsy, every other number is truthy.  This is the test of the line
if (comment.parent_comment_id) in buildCommentTree. -/
def truthyParent (c : Comment) : Bool :=
  match c.parent_comment_id with
  | none => false
  | some p => p != 0

/-- The Map built by the first pass of buildCommentTree, read at key i:
Map.set overwrites, so the entry holds the fields of the last input comment
whose id equals i. -/
def mapLookup (cs : List Comment) (i : Int) : Option Comment :=
  (cs.filter (fun c => c.id == i)).getLast?

/-- The tree node type: the Comment fields plus the children array. -/
inductive CommentNode where
  | mk (comment : Comment) (children : List CommentNode)

def CommentNode.comment : CommentNode → Comment
  | .mk c _ => c

def CommentNode.children : CommentNode → List CommentNode
  | .mk _ ch => ch

/-- The final children array of the map node with id p: the second pass
pushes, for each input comment with truthy parent id p and in input order,
the map node of its own id - provided the parent node was found in the map.
-/
def childComments (cs : List Comment) (p : Int) : List Comment :=
  if (mapLookup cs p).isSome then
    (cs.filter (fun c => truthyParent c && c.parent_comment_id == some p)).map
      (fun c => (mapLookup cs c.id).getD c)
  else []

/-- Unfolding of the shared object graph from one node, with fuel. -/
def buildNode (cs : List Comment) : Nat → Comment → CommentNode
  | 0, c => .mk c []
  | fuel+1, c => .mk c ((childComments cs c.id).map (buildNode cs fuel))

/-- The roots array returned by buildCommentTree: for each input comment
with falsy parent id, in input order, the map node of its id, unfolded. -/
def buildCommentTree (cs : List Comment) : List CommentNode :=
  (cs.filter (fun c => !truthyParent c)).map
    (fun c => buildNode cs cs.length ((mapLookup cs c.id).getD c))

/-- commentTree of the CommentSection component: the query data may still
be undefined, in which case the tree is the empty list. -/
def commentTree (comments : Option (List Comment)) : List CommentNode :=
  match comments with
  | some cs => buildCommentTree cs
  | none => []

/-- totalComments of the CommentSection component: comments?.length || 0. -/
def totalComments (comments : Option (List Comment)) : Nat :=
  match comments with
  | some cs => cs.length
  | none => 0

/-- rootComments of the CommentSection component. -/
def rootComments (comments : Option (List Comment)) : Nat :=
  (commentTree comments).length

mutual
/-- The ids of a node and all of its descendants, in preorder. -/
def nodeIds : CommentNode → List Int
  | .mk c ch => c.id :: forestIds ch
/-- The ids of all nodes of a forest, in preorder. -/
def forestIds : List CommentNode → List Int
  | [] => []
  | t :: ts => nodeIds t ++ forestIds ts
end

/-- s occurs inside the tree t (as t itself or inside a child, recursively).
-/
inductive Subtree : CommentNode → CommentNode → Prop where
  | refl (t : CommentNode) : Subtree t t
  | step {s t₀ t : CommentNode} (hmem : t₀ ∈ t.children) (h : Subtree s t₀) : Subtree s t

/-- s occurs somewhere in the forest l. -/
def InForest (s : CommentNode) (l : List CommentNode) : Prop :=
  ∃ t ∈ l, Subtree s t

/-- The NewComment payload of the comment form. -/
structure NewComment where
  content : String
  parent_comment_id : Option Int
deriving DecidableEq, Repr

/-- The row handed to the external insert call. -/
structure CommentInsertRow where
  post_id : Int
  content : String
  parent_comment_id : Option Int
  user_id : String
  author : String
deriving DecidableEq, Repr

/-- JavaScript x || null on the optional parent id: 0 is falsy and becomes
null, as in the insert built by createComment. -/
def orNull (p : Option Int) : Option Int :=
  match p with
  | some v => if v = 0 then none else some v
  | none => none

/-- createComment of CommentSection.tsx: the guard throws when userId or
author is absent (or empty, both being falsy); otherwise the insert row is
handed to the external store, which is abstracted away here. -/
def createComment (newComment : NewComment) (postId : Int)
    (userId : Option String) (author : Option String) :
    Except String CommentInsertRow :=
  match userId, author with
  | some u, some a =>
    if u = "" || a = "" then .error "You must be logged in to comment."
    else .ok { post_id := postId, content := newComment.content,
               parent_comment_id := orNull newComment.parent_comment_id,
               user_id := u, author := a }
  | _, _ => .error "You must be logged in to comment."

/-- createReply of CommentItem.tsx: same guard, reply wording, and the
parent comment id is inserted as given. -/
def createReply (replyContent : String) (postId : Int) (parentCommentId : Int)
    (userId : Option String) (author : Option String) :
    Except String CommentInsertRow :=
  match userId, author with
  | some u, some a =>
    if u = "" || a = "" then .error "You must be logged in to reply."
    else .ok { post_id := postId, content := replyContent,
               parent_comment_id := some parentCommentId,
               user_id := u, author := a }
  | _, _ => .error "You must be logged in to reply."

/-- The reference two-pass algorithm exactly as the design document states
it: a comment whose parent_comment_id is present AND resolves to an entry
of the lookup is appended to the children of that parent, otherwise it is
appended to the roots.  This definition follows the words of the spec, to
be compared with buildCommentTree, which follows the code. -/
def specParentResolves (cs : List Comment) (c : Comment) : Bool :=
  match c.parent_comment_id with
  | some p => (mapLookup cs p).isSome
  | none => false

/-- Final children array of the node with id p under the reference
algorithm of the spec. -/
def specChildComments (cs : List Comment) (p : Int) : List Comment :=
  (cs.filter (fun c => specParentResolves cs c && c.parent_comment_id == some p)).map
    (fun c => (mapLookup cs c.id).getD c)

/-- Unfolding of the reference graph of the spec, with fuel. -/
def specBuildNode (cs : List Comment) : Nat → Comment → CommentNode
  | 0, c => .mk c []
  | fuel+1, c => .mk c ((specChildComments cs c.id).map (specBuildNode cs fuel))

/-- The roots list of the reference algorithm of the spec. -/
def specBuildCommentTree (cs : List Comment) : List CommentNode :=
  (cs.filter (fun c => !specParentResolves cs c)).map
    (fun c => specBuildNode cs cs.length ((mapLookup cs c.id).getD c))

/-- The parent node of c found by the second pass: defined when the parent
id of c is truthy and present in the map. -/
def parentOf (cs : List Comment) (c : Comment) : Option Comment :=
  match c.parent_comment_id with
  | some p => if p = 0 then none else mapLookup cs p
  | none => none

/-- Length of the parent chain of c, following truthy resolving parent
references up to a comment with falsy parent id; none when the chain stalls
at an unresolved truthy parent or does not terminate within the fuel. -/
def chainLen (cs : List Comment) : Nat → Comment → Option Nat
  | 0, _ => none
  | fuel+1, c =>
    if truthyParent c then
      match parentOf cs c with
      | some p => (chainLen cs fuel p).map (· + 1)
      | none => none
    else some 0

/-- The ancestor of c that is m parent steps above c. -/
def ancestorAt (cs : List Comment) : Nat → Comment → Option Comment
  | 0, c => some c
  | m+1, c => (parentOf cs c).bind (ancestorAt cs m)

/-- x lies in the subtree hanging off c: some ancestor of x is c. -/
def Descends (cs : List Comment) (x c : Comment) : Prop :=
  ∃ m, ancestorAt cs m x = some c

/-- Every input comment has a terminating parent chain.  Fuel cs.length is
enough for every terminating chain, because a terminating chain consists of
pairwise distinct comments of cs. -/
def allReachRoot (cs : List Comment) : Bool :=
  cs.all (fun c => (chainLen cs cs.length c).isSome)

/-- No input comment carries parent_comment_id 0. -/
def noZeroParent (cs : List Comment) : Bool :=
  cs.all (fun c => c.parent_comment_id != some 0)

/-- Every present parent id resolves in the map. -/
def allParentsResolve (cs : List Comment) : Bool :=
  cs.all (fun c =>
    match c.parent_comment_id with
    | some p => (mapLookup cs p).isSome
    | none => true)

/-- Concrete comment builder used by the examples. -/
def mkComment (i : Int) (p : Option Int) : Comment :=
  { id := i, post_id := 7, parent_comment_id := p, content := "",
    user_id := "u", created_at := "t", author := "a" }

/-- A comment whose declared parent id 999 is absent from its input. -/
def cmtOrphan : Comment := mkComment 5 (some 999)

/-- A comment citing itself as parent. -/
def cmtSelf : Comment := mkComment 1 (some 1)

/-- Scenario 1 of the spec: one root with two children, one grandchild. -/
def scenario1 : List Comment :=
  [mkComment 1 none, mkComment 2 (some 1), mkComment 3 (some 1), mkComment 4 (some 2)]

/-- First occurrence of the duplicated id 1. -/
def dupFirst : Comment :=
  { id := 1, post_id := 7, parent_comment_id := none, content := "first",
    user_id := "u", created_at := "t", author := "a" }

/-- Second occurrence of the duplicated id 1, with different fields. -/
def dupSecond : Comment :=
  { id := 1, post_id := 7, parent_comment_id := none, content := "second",
    user_id := "u", created_at := "t", author := "a" }

lemma mapLookup_eq_some {cs : List Comment} {i : Int} {c : Comment}
    (h : mapLookup cs i = some c) : c ∈ cs ∧ c.id = i := by
  have hmem : c ∈ cs.filter (fun x => x.id == i) := by
    have hopt : c ∈ (cs.filter (fun x => x.id == i)).getLast? := h
    obtain ⟨hne, hx⟩ := List.mem_getLast?_eq_getLast hopt
    rw [hx]
    exact List.getLast_mem hne
  have := List.mem_filter.mp hmem
  exact ⟨this.1, by simpa using this.2⟩

lemma filter_id_eq {cs : List Comment} (hu : (cs.map Comment.id).Nodup)
    {c : Comment} (hc : c ∈ cs) :
    cs.filter (fun x => x.id == c.id) = [c] := by
  induction cs with
  | nil => cases hc
  | cons a t ih =>
    rw [List.map_cons, List.nodup_cons] at hu
    rcases List.mem_cons.mp hc with rfl | hct
    · have ht : t.filter (fun x => x.id == c.id) = [] := by
        rw [List.filter_eq_nil_iff]
        intro x hx
        simp only [beq_iff_eq]
        intro hxc
        exact hu.1 (hxc ▸ List.mem_map_of_mem Comment.id hx)
      simp [List.filter_cons, ht]
    · have hne : (a.id == c.id) = false := by
        simp only [beq_eq_false_iff_ne, ne_eq]
        intro hac
        exact hu.1 (hac ▸ List.mem_map_of_mem Comment.id hct)
      simp [List.filter_cons, hne, ih hu.2 hct]

lemma mapLookup_self {cs : List Comment} (hu : (cs.map Comment.id).Nodup)
    {c : Comment} (hc : c ∈ cs) : mapLookup cs c.id = some c := by
  unfold mapLookup
  rw [filter_id_eq hu hc]
  rfl

lemma ids_injOn {cs : List Comment} (hu : (cs.map Comment.id).Nodup)
    {a b : Comment} (ha : a ∈ cs) (hb : b ∈ cs) (h : a.id = b.id) : a = b := by
  have h1 := mapLookup_self hu ha
  have h2 := mapLookup_self hu hb
  rw [h, h2] at h1
  exact (Option.some.inj h1).symm

lemma mapLookup_isSome_of_mem {cs : List Comment} {c : Comment} (hc : c ∈ cs) :
    (mapLookup cs c.id).isSome = true := by
  have hmem : c ∈ cs.filter (fun x => x.id == c.id) :=
    List.mem_filter.mpr ⟨hc, by simp⟩
  unfold mapLookup
  rw [List.getLast?_eq_getLast_of_ne_nil (List.ne_nil_of_mem hmem)]
  rfl

/-- C7: totalComments equals the input length, rootComments equals the
number of top-level entries of the forest built by buildCommentTree, and
the empty input yields the empty forest with both counts 0. -/
theorem counts_spec : ∀ cs : List Comment,
    totalComments (some cs) = cs.length
    ∧ rootComments (some cs) = (buildCommentTree cs).length
    ∧ commentTree (some ([] : List Comment)) = []
    ∧ totalComments (some ([] : List Comment)) = 0
    ∧ rootComments (some ([] : List Comment)) = 0 := by
  intro cs
  exact ⟨rfl, rfl, rfl, rfl, rfl⟩

/-- C8: createComment and createReply fail with the login error whenever
the user id or the display name is absent, for every payload; no insert row
is produced. -/
theorem submit_requires_auth (userId author : Option String)
    (h : userId = none ∨ author = none) :
    (∀ (nc : NewComment) (postId : Int),
        createComment nc postId userId author
          = .error "You must be logged in to comment.")
    ∧ (∀ (rc : String) (postId parentCommentId : Int),
        createReply rc postId parentCommentId userId author
          = .error "You must be logged in to reply.") := by
  rcases h with rfl | rfl
  · exact ⟨fun nc p => by cases author <;> rfl, fun rc p q => by cases author <;> rfl⟩
  · exact ⟨fun nc p => by cases userId <;> rfl, fun rc p q => by cases userId <;> rfl⟩

/-- Witness for C8 at a concrete absent user id. -/
theorem submit_requires_auth_example :
    (createComment ⟨"hi", none⟩ 1 none (some "alice")
      = .error "You must be logged in to comment.")
    ∧ (createReply "yo" 1 2 none (some "alice")
      = .error "You must be logged in to reply.") :=
  ⟨(submit_requires_auth none (some "alice") (Or.inl rfl)).1 ⟨"hi", none⟩ 1,
   (submit_requires_auth none (some "alice") (Or.inl rfl)).2 "yo" 1 2⟩

/-- C10: on an input carrying id 1 twice, the forest holds the node built
from the later occurrence (the map entry was overwritten), once per
occurrence of the id, so the same node appears twice. -/
theorem duplicate_id_last_wins :
    buildCommentTree [dupFirst, dupSecond]
      = [CommentNode.mk dupSecond [], CommentNode.mk dupSecond []] := rfl

/-- C6: the transformation is total: the non-null map lookups of the second
pass always succeed, and every input, cyclic parent references included,
yields the forest of its falsy-parent comments. -/
theorem buildCommentTree_total (cs : List Comment) :
    (∀ c ∈ cs, (mapLookup cs c.id).isSome = true)
    ∧ (buildCommentTree cs).length
        = (cs.filter (fun c => !truthyParent c)).length := by
  refine ⟨fun c hc => mapLookup_isSome_of_mem hc, ?_⟩
  unfold buildCommentTree
  rw [List.length_map]

/-- Witness for C6 at a self-referential input. -/
theorem buildCommentTree_total_example :
    ((mapLookup [cmtSelf] cmtSelf.id).isSome = true)
    ∧ (buildCommentTree [cmtSelf]).length
        = ([cmtSelf].filter (fun c => !truthyParent c)).length :=
  ⟨(buildCommentTree_total [cmtSelf]).1 cmtSelf (by decide),
   (buildCommentTree_total [cmtSelf]).2⟩

/-- Counterexample to C1 as stated: the input [cmtOrphan] has pairwise
distinct ids, yet its only comment is dropped: the forest is empty, so the
reachable ids are not a permutation of the input ids. -/
theorem orphan_dropped_counterexample :
    (([cmtOrphan].map Comment.id).Nodup)
    ∧ ¬ (forestIds (buildCommentTree [cmtOrphan])).Perm
        ([cmtOrphan].map Comment.id) := by
  refine ⟨by decide, ?_⟩
  intro h
  have hb : forestIds (buildCommentTree [cmtOrphan]) = [] := rfl
  rw [hb] at h
  simpa using h.length_eq

/-- Counterexample to C2 as stated: the declared parent 999 of cmtOrphan
does not equal the id of any comment of the input, so the claim classifies
it as a root, yet the roots list of the produced forest is empty. -/
theorem orphan_not_promoted_counterexample :
    (∀ c ∈ [cmtOrphan], some c.id ≠ cmtOrphan.parent_comment_id)
    ∧ ((buildCommentTree [cmtOrphan]).map (fun t => t.comment.id)) = [] :=
  ⟨by decide, rfl⟩

/-- Counterexample to C3 as stated: on [cmtOrphan] the reference algorithm
of the spec promotes the orphan to a root while the code drops it, so the
two functions differ. -/
theorem reference_mismatch_counterexample :
    buildCommentTree [cmtOrphan] ≠ specBuildCommentTree [cmtOrphan] := by
  intro h
  have h1 : buildCommentTree [cmtOrphan] = [] := rfl
  have h2 : specBuildCommentTree [cmtOrphan] = [CommentNode.mk cmtOrphan []] := rfl
  rw [h1, h2] at h
  exact List.noConfusion h

lemma truthyParent_iff {c : Comment} :
    truthyParent c = true ↔ ∃ p, c.parent_comment_id = some p ∧ p ≠ 0 := by
  unfold truthyParent
  cases hp : c.parent_comment_id with
  | none => simp
  | some p => simp [bne_iff_ne]

lemma parentOf_eq_some {cs : List Comment} {c q : Comment} :
    parentOf cs c = some q ↔
      ∃ p, c.parent_comment_id = some p ∧ p ≠ 0 ∧ mapLookup cs p = some q := by
  unfold parentOf
  cases hp : c.parent_comment_id with
  | none => simp
  | some p =>
    by_cases h0 : p = 0
    · simp [h0]
    · simp [h0]

lemma truthy_of_parentOf {cs : List Comment} {c q : Comment}
    (h : parentOf cs c = some q) : truthyParent c = true := by
  obtain ⟨p, hp, h0, _⟩ := parentOf_eq_some.mp h
  rw [truthyParent_iff]
  exact ⟨p, hp, h0⟩

lemma parentOf_mem {cs : List Comment} {c q : Comment}
    (h : parentOf cs c = some q) : q ∈ cs := by
  obtain ⟨p, _, _, hm⟩ := parentOf_eq_some.mp h
  exact (mapLookup_eq_some hm).1

lemma chainLen_succ (cs : List Comment) (c : Comment) (fuel : Nat) :
    chainLen cs (fuel+1) c
      = if truthyParent c then
          match parentOf cs c with
          | some p => (chainLen cs fuel p).map (· + 1)
          | none => none
        else some 0 := rfl

lemma chainLen_root {cs : List Comment} {c : Comment} {u : Nat}
    (h : truthyParent c = false) : chainLen cs (u+1) c = some 0 := by
  rw [chainLen_succ]
  simp [h]

lemma chainLen_parent {cs : List Comment} {c q : Comment} {fuel : Nat}
    (h : parentOf cs c = some q) :
    chainLen cs (fuel+1) c = (chainLen cs fuel q).map (· + 1) := by
  rw [chainLen_succ]
  simp [truthy_of_parentOf h, h]

lemma chainLen_stall {cs : List Comment} {c : Comment} {fuel : Nat}
    (ht : truthyParent c = true) (h : parentOf cs c = none) :
    chainLen cs (fuel+1) c = none := by
  rw [chainLen_succ]
  simp [ht, h]

lemma chainLen_lt {cs : List Comment} :
    ∀ {fuel : Nat} {c : Comment} {k : Nat}, chainLen cs fuel c = some k → k < fuel := by
  intro fuel
  induction fuel with
  | zero => intro c k h; simp [chainLen] at h
  | succ f ih =>
    intro c k h
    by_cases ht : truthyParent c = true
    · cases hq : parentOf cs c with
      | none => rw [chainLen_stall ht hq] at h; cases h
      | some q =>
        rw [chainLen_parent hq] at h
        cases hk : chainLen cs f q with
        | none => rw [hk] at h; cases h
        | some k0 =>
          rw [hk] at h
          simp at h
          have hlt := ih hk
          omega
    · have ht' : truthyParent c = false := by simpa using ht
      rw [chainLen_root ht'] at h
      simp at h
      omega

lemma chainLen_mono {cs : List Comment} :
    ∀ {fuel : Nat} {c : Comment} {k : Nat}, chainLen cs fuel c = some k →
      ∀ {fuel2 : Nat}, k < fuel2 → chainLen cs fuel2 c = some k := by
  intro fuel
  induction fuel with
  | zero => intro c k h; simp [chainLen] at h
  | succ f ih =>
    intro c k h fuel2 hk2
    obtain ⟨f2, rfl⟩ : ∃ f2, fuel2 = f2 + 1 := ⟨fuel2 - 1, by omega⟩
    by_cases ht : truthyParent c = true
    · cases hq : parentOf cs c with
      | none => rw [chainLen_stall ht hq] at h; cases h
      | some q =>
        rw [chainLen_parent hq] at h
        cases hkq : chainLen cs f q with
        | none => rw [hkq] at h; cases h
        | some k0 =>
          rw [hkq] at h
          simp at h
          rw [chainLen_parent hq, ih hkq (show k0 < f2 by omega)]
          simp [h]
    · have ht' : truthyParent c = false := by simpa using ht
      rw [chainLen_root ht'] at h
      simp at h
      rw [chainLen_root ht', h]

lemma chainLen_unique {cs : List Comment} {c : Comment} {f1 f2 k1 k2 : Nat}
    (h1 : chainLen cs f1 c = some k1) (h2 : chainLen cs f2 c = some k2) :
    k1 = k2 := by
  have e1 := chainLen_mono h1 (show k1 < max k1 k2 + 1 by omega)
  have e2 := chainLen_mono h2 (show k2 < max k1 k2 + 1 by omega)
  rw [e1] at e2
  exact Option.some.inj e2

lemma ancestorAt_zero {cs : List Comment} {c : Comment} :
    ancestorAt cs 0 c = some c := rfl

lemma ancestorAt_succ {cs : List Comment} {c : Comment} {m : Nat} :
    ancestorAt cs (m+1) c = (parentOf cs c).bind (ancestorAt cs m) := rfl

lemma ancestorAt_mem {cs : List Comment} :
    ∀ {m : Nat} {x y : Comment}, x ∈ cs → ancestorAt cs m x = some y → y ∈ cs := by
  intro m
  induction m with
  | zero =>
    intro x y hx h
    rw [ancestorAt_zero] at h
    injection h with h
    exact h ▸ hx
  | succ m ih =>
    intro x y hx h
    rw [ancestorAt_succ] at h
    cases hp : parentOf cs x with
    | none => rw [hp] at h; cases h
    | some q =>
      rw [hp] at h
      exact ih (parentOf_mem hp) (by simpa using h)

lemma ancestorAt_decomp {cs : List Comment} :
    ∀ {m : Nat} {x c : Comment}, ancestorAt cs (m+1) x = some c →
      ∃ y, ancestorAt cs m x = some y ∧ parentOf cs y = some c := by
  intro m
  induction m with
  | zero =>
    intro x c h
    rw [ancestorAt_succ] at h
    cases hp : parentOf cs x with
    | none => rw [hp] at h; cases h
    | some q =>
      rw [hp] at h
      simp [ancestorAt_zero] at h
      exact ⟨x, rfl, by rw [hp, h]⟩
  | succ m ih =>
    intro x c h
    rw [ancestorAt_succ] at h
    cases hp : parentOf cs x with
    | none => rw [hp] at h; cases h
    | some q =>
      rw [hp] at h
      simp at h
      obtain ⟨y, hy, hyc⟩ := ih h
      refine ⟨y, ?_, hyc⟩
      rw [ancestorAt_succ, hp]
      simpa using hy

lemma ancestorAt_snoc {cs : List Comment} :
    ∀ {m : Nat} {x y z : Comment}, ancestorAt cs m x = some y →
      parentOf cs y = some z → ancestorAt cs (m+1) x = some z := by
  intro m
  induction m with
  | zero =>
    intro x y z h hz
    injection h with h
    subst h
    rw [ancestorAt_succ, hz]
    rfl
  | succ m ih =>
    intro x y z h hz
    rw [ancestorAt_succ] at h ⊢
    cases hp : parentOf cs x with
    | none => rw [hp] at h; cases h
    | some q =>
      rw [hp] at h
      simp only [Option.some_bind] at h ⊢
      exact ih h hz

lemma chainLen_ancestor {cs : List Comment} :
    ∀ {m : Nat} {x y : Comment} {f k : Nat}, chainLen cs f x = some k →
      ancestorAt cs m x = some y →
      m ≤ k ∧ ∃ f2, chainLen cs f2 y = some (k - m) := by
  intro m
  induction m with
  | zero =>
    intro x y f k hk h
    injection h with h
    subst h
    exact ⟨Nat.zero_le _, f, by simpa using hk⟩
  | succ m ih =>
    intro x y f k hk h
    rw [ancestorAt_succ] at h
    cases hp : parentOf cs x with
    | none => rw [hp] at h; cases h
    | some q =>
      rw [hp] at h
      simp at h
      cases f with
      | zero => simp [chainLen] at hk
      | succ f =>
        rw [chainLen_parent hp] at hk
        cases hkq : chainLen cs f q with
        | none => rw [hkq] at hk; cases hk
        | some k0 =>
          rw [hkq] at hk
          simp at hk
          obtain ⟨hm, f2, hf2⟩ := ih hkq h
          refine ⟨by omega, f2, ?_⟩
          rw [hf2]
          congr 1
          omega

lemma grounded_of_descends {cs : List Comment} :
    ∀ {m : Nat} {x y : Comment} {f k : Nat}, ancestorAt cs m x = some y →
      chainLen cs f y = some k → ∃ f2, chainLen cs f2 x = some (m + k) := by
  intro m
  induction m with
  | zero =>
    intro x y f k h hk
    injection h with h
    subst h
    exact ⟨f, by simpa using hk⟩
  | succ m ih =>
    intro x y f k h hk
    rw [ancestorAt_succ] at h
    cases hp : parentOf cs x with
    | none => rw [hp] at h; cases h
    | some q =>
      rw [hp] at h
      simp at h
      obtain ⟨f2, hf2⟩ := ih h hk
      refine ⟨f2 + 1, ?_⟩
      rw [chainLen_parent hp, hf2]
      simp
      omega

lemma ancestor_inj {cs : List Comment} {x : Comment} {f k : Nat}
    (hk : chainLen cs f x = some k) {j1 j2 : Nat} {y : Comment}
    (h1 : ancestorAt cs j1 x = some y) (h2 : ancestorAt cs j2 x = some y) :
    j1 = j2 := by
  obtain ⟨hm1, f1, hf1⟩ := chainLen_ancestor hk h1
  obtain ⟨hm2, f2, hf2⟩ := chainLen_ancestor hk h2
  have := chainLen_unique hf1 hf2
  omega

lemma ancestorAt_isSome {cs : List Comment} :
    ∀ {m : Nat} {x : Comment} {f k : Nat}, chainLen cs f x = some k → m ≤ k →
      ∃ y, ancestorAt cs m x = some y := by
  intro m
  induction m with
  | zero => intro x f k _ _; exact ⟨x, rfl⟩
  | succ m ih =>
    intro x f k hk hm
    cases f with
    | zero => simp [chainLen] at hk
    | succ f =>
      by_cases ht : truthyParent x = true
      · cases hp : parentOf cs x with
        | none => rw [chainLen_stall ht hp] at hk; cases hk
        | some q =>
          rw [chainLen_parent hp] at hk
          cases hkq : chainLen cs f q with
          | none => rw [hkq] at hk; cases hk
          | some k0 =>
            rw [hkq] at hk
            simp at hk
            obtain ⟨y, hy⟩ := ih hkq (show m ≤ k0 by omega)
            exact ⟨y, by rw [ancestorAt_succ, hp]; simpa using hy⟩
      · have ht' : truthyParent x = false := by simpa using ht
        rw [chainLen_root ht'] at hk
        simp at hk
        omega

lemma root_of_chainLen {cs : List Comment} :
    ∀ {f : Nat} {x : Comment} {k : Nat}, chainLen cs f x = some k →
      ∃ r, ancestorAt cs k x = some r ∧ truthyParent r = false := by
  intro f
  induction f with
  | zero => intro x k h; simp [chainLen] at h
  | succ f ih =>
    intro x k h
    by_cases ht : truthyParent x = true
    · cases hp : parentOf cs x with
      | none => rw [chainLen_stall ht hp] at h; cases h
      | some q =>
        rw [chainLen_parent hp] at h
        cases hkq : chainLen cs f q with
        | none => rw [hkq] at h; cases h
        | some k0 =>
          rw [hkq] at h
          simp at h
          obtain ⟨r, hr, hroot⟩ := ih hkq
          refine ⟨r, ?_, hroot⟩
          rw [← h, ancestorAt_succ, hp]
          simpa using hr
    · have ht' : truthyParent x = false := by simpa using ht
      rw [chainLen_root ht'] at h
      simp at h
      exact ⟨x, by rw [← h]; rfl, ht'⟩

lemma chainLen_lt_length {cs : List Comment} {x : Comment} (hx : x ∈ cs)
    {f k : Nat} (hk : chainLen cs f x = some k) : k < cs.length := by
  have hsome : ∀ j, j ≤ k → ∃ y, ancestorAt cs j x = some y := fun j hj =>
    ancestorAt_isSome hk hj
  set l := (List.range (k+1)).map (fun j => (ancestorAt cs j x).getD x) with hl
  have hspec : ∀ j ∈ List.range (k+1),
      ancestorAt cs j x = some ((ancestorAt cs j x).getD x) := by
    intro j hj
    obtain ⟨y, hy⟩ := hsome j (by simpa [Nat.lt_succ_iff] using List.mem_range.mp hj)
    rw [hy]
    rfl
  have hnodup : l.Nodup := by
    refine (List.nodup_range (k+1)).map_on ?_
    intro j1 hj1 j2 hj2 heq
    exact ancestor_inj hk (heq ▸ hspec j1 hj1) (hspec j2 hj2)
  have hsub : l ⊆ cs := by
    intro y hy
    rw [hl] at hy
    obtain ⟨j, hj, hjy⟩ := List.mem_map.mp hy
    exact ancestorAt_mem hx (hjy ▸ hspec j hj)
  have hlen : l.length = k + 1 := by
    rw [hl, List.length_map, List.length_range]
  have := (List.subperm_of_subset hnodup hsub).length_le
  omega

lemma childComments_eq {cs : List Comment} (hu : (cs.map Comment.id).Nodup)
    {c : Comment} (hc : c ∈ cs) :
    childComments cs c.id
      = cs.filter (fun x => truthyParent x && x.parent_comment_id == some c.id) := by
  unfold childComments
  rw [mapLookup_self hu hc]
  simp only [Option.isSome_some, if_true]
  conv_rhs => rw [← List.map_id
    (cs.filter (fun x => truthyParent x && x.parent_comment_id == some c.id))]
  refine List.map_congr_left ?_
  intro x hx
  rw [mapLookup_self hu (List.mem_filter.mp hx).1]
  rfl

lemma mem_childComments {cs : List Comment} (hu : (cs.map Comment.id).Nodup)
    {c : Comment} (hc : c ∈ cs) {y : Comment} :
    y ∈ childComments cs c.id ↔ y ∈ cs ∧ parentOf cs y = some c := by
  rw [childComments_eq hu hc, List.mem_filter]
  constructor
  · rintro ⟨hy, hcond⟩
    simp only [Bool.and_eq_true, beq_iff_eq] at hcond
    obtain ⟨ht, hpid⟩ := hcond
    have h0 : c.id ≠ 0 := by
      unfold truthyParent at ht
      rw [hpid] at ht
      simpa using ht
    refine ⟨hy, ?_⟩
    rw [parentOf_eq_some]
    exact ⟨c.id, hpid, h0, mapLookup_self hu hc⟩
  · rintro ⟨hy, hpar⟩
    obtain ⟨p, hp, h0, hm⟩ := parentOf_eq_some.mp hpar
    have hpc : p = c.id := ((mapLookup_eq_some hm).2).symm
    refine ⟨hy, ?_⟩
    simp only [Bool.and_eq_true, beq_iff_eq]
    exact ⟨truthyParent_iff.mpr ⟨p, hp, h0⟩, by rw [hp, hpc]⟩

lemma mem_cs_of_childComments {cs : List Comment} {p : Int} {y : Comment}
    (hy : y ∈ childComments cs p) : y ∈ cs := by
  unfold childComments at hy
  by_cases h : (mapLookup cs p).isSome
  · rw [if_pos h] at hy
    obtain ⟨x, hx, hxy⟩ := List.mem_map.mp hy
    cases hm : mapLookup cs x.id with
    | none =>
      rw [hm] at hxy
      simp only [Option.getD_none] at hxy
      exact hxy ▸ (List.mem_filter.mp hx).1
    | some z =>
      rw [hm] at hxy
      simp only [Option.getD_some] at hxy
      exact hxy ▸ (mapLookup_eq_some hm).1
  · rw [if_neg h] at hy
    cases hy

lemma childComments_nodup {cs : List Comment} (hu : (cs.map Comment.id).Nodup)
    {c : Comment} (hc : c ∈ cs) : (childComments cs c.id).Nodup := by
  rw [childComments_eq hu hc]
  exact (List.Nodup.of_map _ hu).filter _

lemma chainLen_child {cs : List Comment} (hu : (cs.map Comment.id).Nodup)
    {c y : Comment} (hc : c ∈ cs) {f k : Nat} (hk : chainLen cs f c = some k)
    (hy : y ∈ childComments cs c.id) : chainLen cs (f+1) y = some (k+1) := by
  have hpar := ((mem_childComments hu hc).mp hy).2
  rw [chainLen_parent hpar, hk]
  rfl

lemma buildNode_comment (cs : List Comment) (f : Nat) (c : Comment) :
    (buildNode cs f c).comment = c := by
  cases f <;> rfl

lemma nodeIds_buildNode_zero (cs : List Comment) (c : Comment) :
    nodeIds (buildNode cs 0 c) = [c.id] := rfl

lemma nodeIds_buildNode_succ (cs : List Comment) (f : Nat) (c : Comment) :
    nodeIds (buildNode cs (f+1) c)
      = c.id :: forestIds ((childComments cs c.id).map (buildNode cs f)) := rfl

lemma forestIds_nil : forestIds [] = [] := rfl

lemma forestIds_cons (t : CommentNode) (ts : List CommentNode) :
    forestIds (t :: ts) = nodeIds t ++ forestIds ts := rfl

lemma count_forestIds (a : Int) (l : List CommentNode) :
    (forestIds l).count a = (l.map (fun t => (nodeIds t).count a)).sum := by
  induction l with
  | nil => rfl
  | cons t ts ih =>
    rw [forestIds_cons, List.count_append, ih, List.map_cons, List.sum_cons]

lemma mem_forestIds {i : Int} {l : List CommentNode} :
    i ∈ forestIds l ↔ ∃ t ∈ l, i ∈ nodeIds t := by
  induction l with
  | nil => simp [forestIds_nil]
  | cons t ts ih => simp [forestIds_cons, ih]

lemma map_sum_le_one {l : List Comment} (hl : l.Nodup) (g : Comment → Nat)
    (hle : ∀ y ∈ l, g y ≤ 1)
    (hexcl : ∀ y1 ∈ l, ∀ y2 ∈ l, 0 < g y1 → 0 < g y2 → y1 = y2) :
    (l.map g).sum ≤ 1 := by
  induction l with
  | nil => simp
  | cons y t ih =>
    rw [List.map_cons, List.sum_cons]
    rw [List.nodup_cons] at hl
    by_cases hy : g y = 0
    · rw [hy, Nat.zero_add]
      exact ih hl.2 (fun z hz => hle z (List.mem_cons_of_mem y hz))
        (fun z1 h1 z2 h2 => hexcl z1 (List.mem_cons_of_mem y h1) z2 (List.mem_cons_of_mem y h2))
    · have h1 : g y = 1 := by
        have := hle y (List.mem_cons_self y t)
        omega
      have ht : ∀ z ∈ t, g z = 0 := by
        intro z hz
        by_contra hz0
        have hzy := hexcl y (List.mem_cons_self y t) z (List.mem_cons_of_mem y hz)
          (by omega) (by omega)
        exact hl.1 (hzy ▸ hz)
      have hsum : (t.map g).sum = 0 := by
        refine List.sum_eq_zero ?_
        intro n hn
        obtain ⟨z, hz, rfl⟩ := List.mem_map.mp hn
        exact ht z hz
      rw [h1, hsum]

lemma map_sum_eq_one {l : List Comment} (hl : l.Nodup) (g : Comment → Nat)
    {y : Comment} (hy : y ∈ l) (h1 : g y = 1)
    (h0 : ∀ z ∈ l, z ≠ y → g z = 0) :
    (l.map g).sum = 1 := by
  induction l with
  | nil => cases hy
  | cons a t ih =>
    rw [List.map_cons, List.sum_cons]
    rw [List.nodup_cons] at hl
    rcases List.mem_cons.mp hy with rfl | hyt
    · have hsum : (t.map g).sum = 0 := by
        refine List.sum_eq_zero ?_
        intro n hn
        obtain ⟨z, hz, rfl⟩ := List.mem_map.mp hn
        exact h0 z (List.mem_cons_of_mem _ hz) (by rintro rfl; exact hl.1 hz)
      rw [h1, hsum]
    · have ha : g a = 0 := by
        refine h0 a (List.mem_cons_self a t) ?_
        rintro rfl
        exact hl.1 hyt
      rw [ha, Nat.zero_add]
      exact ih hl.2 hyt (fun z hz hzy => h0 z (List.mem_cons_of_mem a hz) hzy)

lemma nodeIds_sub {cs : List Comment} :
    ∀ {f : Nat} {c : Comment}, c ∈ cs →
      ∀ i ∈ nodeIds (buildNode cs f c), ∃ x ∈ cs, x.id = i := by
  intro f
  induction f with
  | zero =>
    intro c hc i hi
    rw [nodeIds_buildNode_zero] at hi
    simp only [List.mem_singleton] at hi
    exact ⟨c, hc, hi.symm⟩
  | succ f ih =>
    intro c hc i hi
    rw [nodeIds_buildNode_succ] at hi
    rcases List.mem_cons.mp hi with rfl | hi'
    · exact ⟨c, hc, rfl⟩
    · obtain ⟨t, ht, hit⟩ := mem_forestIds.mp hi'
      obtain ⟨y, hy, rfl⟩ := List.mem_map.mp ht
      exact ih (mem_cs_of_childComments hy) i hit

lemma count_nodeIds_zero {cs : List Comment} (hu : (cs.map Comment.id).Nodup) :
    ∀ {f : Nat} {c : Comment} {f0 k : Nat} {x : Comment}, c ∈ cs →
      chainLen cs f0 c = some k → x ∈ cs → ¬ Descends cs x c →
      (nodeIds (buildNode cs f c)).count x.id = 0 := by
  intro f
  induction f with
  | zero =>
    intro c f0 k x hc hk hx hnd
    have hne : ¬ (c.id = x.id) := by
      intro h
      exact hnd ⟨0, by rw [ancestorAt_zero, ids_injOn hu hx hc h.symm]⟩
    rw [nodeIds_buildNode_zero]
    simp [List.count_singleton', hne]
  | succ f ih =>
    intro c f0 k x hc hk hx hnd
    have hne : ¬ (c.id = x.id) := by
      intro h
      exact hnd ⟨0, by rw [ancestorAt_zero, ids_injOn hu hx hc h.symm]⟩
    rw [nodeIds_buildNode_succ, List.count_cons]
    have hforest :
        (forestIds ((childComments cs c.id).map (buildNode cs f))).count x.id = 0 := by
      rw [count_forestIds, List.map_map]
      refine List.sum_eq_zero ?_
      intro n hn
      obtain ⟨y, hy, rfl⟩ := List.mem_map.mp hn
      have hycs : y ∈ cs := mem_cs_of_childComments hy
      have hky : chainLen cs (f0+1) y = some (k+1) := chainLen_child hu hc hk hy
      have hndy : ¬ Descends cs x y := by
        rintro ⟨m, hm⟩
        have hpar := ((mem_childComments hu hc).mp hy).2
        exact hnd ⟨m+1, ancestorAt_snoc hm hpar⟩
      exact ih hycs hky hx hndy
    rw [hforest]
    simp [hne]

lemma not_descends_child {cs : List Comment} (hu : (cs.map Comment.id).Nodup)
    {c y : Comment} (hc : c ∈ cs) {f0 k : Nat} (hk : chainLen cs f0 c = some k)
    (hy : y ∈ childComments cs c.id) : ¬ Descends cs c y := by
  rintro ⟨m, hm⟩
  have hky : chainLen cs (f0+1) y = some (k+1) := chainLen_child hu hc hk hy
  obtain ⟨hm', f2, hf2⟩ := chainLen_ancestor hk hm
  have := chainLen_unique hf2 hky
  omega

lemma descends_unique_child {cs : List Comment} (hu : (cs.map Comment.id).Nodup)
    {c y1 y2 x : Comment} (hc : c ∈ cs) {f0 k : Nat}
    (hk : chainLen cs f0 c = some k)
    (hy1 : y1 ∈ childComments cs c.id) (hy2 : y2 ∈ childComments cs c.id)
    (hd1 : Descends cs x y1) (hd2 : Descends cs x y2) : y1 = y2 := by
  obtain ⟨m1, hm1⟩ := hd1
  obtain ⟨m2, hm2⟩ := hd2
  have hky1 : chainLen cs (f0+1) y1 = some (k+1) := chainLen_child hu hc hk hy1
  have hky2 : chainLen cs (f0+1) y2 = some (k+1) := chainLen_child hu hc hk hy2
  obtain ⟨fx, hfx⟩ := grounded_of_descends hm1 hky1
  obtain ⟨hle1, f1', hf1'⟩ := chainLen_ancestor hfx hm1
  obtain ⟨hle2, f2', hf2'⟩ := chainLen_ancestor hfx hm2
  have e1 := chainLen_unique hf1' hky1
  have e2 := chainLen_unique hf2' hky2
  have hm12 : m1 = m2 := by omega
  rw [hm12, hm2] at hm1
  exact (Option.some.inj hm1).symm

lemma count_nodeIds_le_one {cs : List Comment} (hu : (cs.map Comment.id).Nodup) :
    ∀ {f : Nat} {c : Comment} {f0 k : Nat} {x : Comment}, c ∈ cs →
      chainLen cs f0 c = some k → x ∈ cs →
      (nodeIds (buildNode cs f c)).count x.id ≤ 1 := by
  intro f
  induction f with
  | zero =>
    intro c f0 k x hc hk hx
    rw [nodeIds_buildNode_zero]
    simp [List.count_singleton']
    split <;> omega
  | succ f ih =>
    intro c f0 k x hc hk hx
    rw [nodeIds_buildNode_succ, List.count_cons, count_forestIds, List.map_map]
    by_cases hxc : c.id = x.id
    · have hxc' : x = c := ids_injOn hu hx hc hxc.symm
      have hsum :
          ((childComments cs c.id).map
            (fun y => (nodeIds (buildNode cs f y)).count x.id)).sum = 0 := by
        refine List.sum_eq_zero ?_
        intro n hn
        obtain ⟨y, hy, rfl⟩ := List.mem_map.mp hn
        have hnd : ¬ Descends cs x y := hxc' ▸ not_descends_child hu hc hk hy
        exact count_nodeIds_zero hu (mem_cs_of_childComments hy)
          (chainLen_child hu hc hk hy) hx hnd
      simp only [Function.comp_def]
      rw [hsum]
      simp [hxc]
    · have hsum :
          ((childComments cs c.id).map
            (fun y => (nodeIds (buildNode cs f y)).count x.id)).sum ≤ 1 := by
        refine map_sum_le_one (childComments_nodup hu hc) _ ?_ ?_
        · intro y hy
          exact ih (mem_cs_of_childComments hy) (chainLen_child hu hc hk hy) hx
        · intro y1 h1 y2 h2 hp1 hp2
          have hd1 : Descends cs x y1 := by
            by_contra hnd
            have := count_nodeIds_zero hu (f := f) (mem_cs_of_childComments h1)
              (chainLen_child hu hc hk h1) hx hnd
            omega
          have hd2 : Descends cs x y2 := by
            by_contra hnd
            have := count_nodeIds_zero hu (f := f) (mem_cs_of_childComments h2)
              (chainLen_child hu hc hk h2) hx hnd
            omega
          exact descends_unique_child hu hc hk h1 h2 hd1 hd2
      simp only [Function.comp_def]
      simp [hxc]
      omega

lemma count_nodeIds_eq_one {cs : List Comment} (hu : (cs.map Comment.id).Nodup) :
    ∀ {m : Nat} {f : Nat} {c x : Comment} {f0 k : Nat}, c ∈ cs →
      chainLen cs f0 c = some k → x ∈ cs → ancestorAt cs m x = some c → m < f →
      (nodeIds (buildNode cs f c)).count x.id = 1 := by
  intro m
  induction m with
  | zero =>
    intro f c x f0 k hc hk hx hm hf
    injection hm with hm
    subst hm
    obtain ⟨f1, rfl⟩ : ∃ f1, f = f1 + 1 := ⟨f - 1, by omega⟩
    rw [nodeIds_buildNode_succ, List.count_cons, count_forestIds, List.map_map]
    have hsum :
        ((childComments cs x.id).map
          (fun y => (nodeIds (buildNode cs f1 y)).count x.id)).sum = 0 := by
      refine List.sum_eq_zero ?_
      intro n hn
      obtain ⟨y, hy, rfl⟩ := List.mem_map.mp hn
      exact count_nodeIds_zero hu (mem_cs_of_childComments hy)
        (chainLen_child hu hx hk hy) hx (not_descends_child hu hx hk hy)
    simp only [Function.comp_def]
    rw [hsum]
    simp
  | succ m ih =>
    intro f c x f0 k hc hk hx hm hf
    obtain ⟨f1, rfl⟩ : ∃ f1, f = f1 + 1 := ⟨f - 1, by omega⟩
    obtain ⟨y, hy_anc, hy_par⟩ := ancestorAt_decomp hm
    have hycs : y ∈ cs := ancestorAt_mem hx hy_anc
    have hy_child : y ∈ childComments cs c.id :=
      (mem_childComments hu hc).mpr ⟨hycs, hy_par⟩
    have hky : chainLen cs (f0+1) y = some (k+1) := chainLen_child hu hc hk hy_child
    have hne : ¬ (c.id = x.id) := by
      intro h
      have hxc : x = c := ids_injOn hu hx hc h.symm
      subst hxc
      obtain ⟨hmk, f2, hf2⟩ := chainLen_ancestor hk hm
      have := chainLen_unique hf2 hk
      omega
    rw [nodeIds_buildNode_succ, List.count_cons, count_forestIds, List.map_map]
    have hsum :
        ((childComments cs c.id).map
          (fun z => (nodeIds (buildNode cs f1 z)).count x.id)).sum = 1 := by
      refine map_sum_eq_one (childComments_nodup hu hc) _ hy_child ?_ ?_
      · exact ih hycs hky hx hy_anc (by omega)
      · intro z hz hzy
        have hnd : ¬ Descends cs x z := by
          intro hd
          exact hzy (descends_unique_child hu hc hk hz hy_child hd ⟨m, hy_anc⟩)
        exact count_nodeIds_zero hu (mem_cs_of_childComments hz)
          (chainLen_child hu hc hk hz) hx hnd
    simp only [Function.comp_def]
    rw [hsum]
    simp [hne]

lemma buildCommentTree_eq {cs : List Comment} (hu : (cs.map Comment.id).Nodup) :
    buildCommentTree cs
      = (cs.filter (fun c => !truthyParent c)).map (fun c => buildNode cs cs.length c) := by
  unfold buildCommentTree
  refine List.map_congr_left ?_
  intro c hc
  rw [mapLookup_self hu (List.mem_filter.mp hc).1]
  rfl

lemma roots_ids {cs : List Comment} (hu : (cs.map Comment.id).Nodup) :
    (buildCommentTree cs).map (fun t => t.comment.id)
      = (cs.filter (fun c => !truthyParent c)).map Comment.id := by
  rw [buildCommentTree_eq hu, List.map_map]
  refine List.map_congr_left ?_
  intro c hc
  simp [Function.comp_def, buildNode_comment]

lemma count_forest {cs : List Comment} (hu : (cs.map Comment.id).Nodup) (a : Int) :
    (forestIds (buildCommentTree cs)).count a
      = ((cs.filter (fun c => !truthyParent c)).map
          (fun r => (nodeIds (buildNode cs cs.length r)).count a)).sum := by
  rw [buildCommentTree_eq hu, count_forestIds, List.map_map]
  simp only [Function.comp_def]

/-- C1 corrected: for inputs with pairwise distinct ids in which every
parent chain terminates (no orphaned parent reference and no cycle), the
ids of the produced forest are a permutation of the input ids.  Comments
whose chain stalls at an unresolved parent or runs into a cycle are
dropped, which is what the counterexample exhibits. -/
theorem buildCommentTree_ids_perm {cs : List Comment}
    (hu : (cs.map Comment.id).Nodup) (hr : allReachRoot cs = true) :
    (forestIds (buildCommentTree cs)).Perm (cs.map Comment.id) := by
  rw [List.perm_iff_count]
  intro a
  by_cases hex : ∃ x ∈ cs, x.id = a
  · obtain ⟨x, hx, rfl⟩ := hex
    have hra : (cs.map Comment.id).count x.id = 1 :=
      List.count_eq_one_of_mem hu (List.mem_map_of_mem Comment.id hx)
    have hg : (chainLen cs cs.length x).isSome = true := by
      unfold allReachRoot at hr
      exact List.all_eq_true.mp hr x hx
    obtain ⟨k, hk⟩ := Option.isSome_iff_exists.mp hg
    obtain ⟨r, hanc, hroot⟩ := root_of_chainLen hk
    have hrcs : r ∈ cs := ancestorAt_mem hx hanc
    have hklt : k < cs.length := chainLen_lt_length hx hk
    rw [count_forest hu, hra]
    refine map_sum_eq_one ((List.Nodup.of_map _ hu).filter _) _
      (List.mem_filter.mpr ⟨hrcs, by simp [hroot]⟩) ?_ ?_
    · exact count_nodeIds_eq_one hu hrcs (chainLen_root (u := 0) hroot) hx hanc hklt
    · intro z hz hzr
      have hzcs := (List.mem_filter.mp hz).1
      have hzroot : truthyParent z = false := by
        simpa using (List.mem_filter.mp hz).2
      refine count_nodeIds_zero hu hzcs (chainLen_root (u := 0) hzroot) hx ?_
      rintro ⟨m, hm⟩
      obtain ⟨hmk, f2, hf2⟩ := chainLen_ancestor hk hm
      have h0 := chainLen_unique hf2 (chainLen_root (u := 0) hzroot)
      have hmk' : m = k := by omega
      rw [hmk', hanc] at hm
      exact hzr (Option.some.inj hm).symm
  · have hra : (cs.map Comment.id).count a = 0 := by
      rw [List.count_eq_zero]
      intro hmem
      obtain ⟨x, hx, hxa⟩ := List.mem_map.mp hmem
      exact hex ⟨x, hx, hxa⟩
    rw [hra, count_forest hu]
    refine List.sum_eq_zero ?_
    intro n hn
    obtain ⟨r, hr', rfl⟩ := List.mem_map.mp hn
    rw [List.count_eq_zero]
    intro hmem
    obtain ⟨x, hx, hxa⟩ := nodeIds_sub (List.mem_filter.mp hr').1 a hmem
    exact hex ⟨x, hx, hxa⟩

/-- Witness for the corrected C1 at the four-comment scenario of the spec.
-/
theorem buildCommentTree_ids_perm_example :
    ((scenario1.map Comment.id).Nodup ∧ allReachRoot scenario1 = true)
    ∧ (forestIds (buildCommentTree scenario1)).Perm (scenario1.map Comment.id) :=
  ⟨⟨by decide, by decide⟩, buildCommentTree_ids_perm (by decide) (by decide)⟩

/-- C5: on any input with pairwise distinct ids, no id occurs more than
once in the whole produced forest, roots and all descendants counted. -/
theorem buildCommentTree_no_duplicates {cs : List Comment}
    (hu : (cs.map Comment.id).Nodup) :
    ∀ a : Int, (forestIds (buildCommentTree cs)).count a ≤ 1 := by
  intro a
  rw [count_forest hu]
  by_cases hex : ∃ x ∈ cs, x.id = a
  · obtain ⟨x, hx, rfl⟩ := hex
    refine map_sum_le_one ((List.Nodup.of_map _ hu).filter _) _ ?_ ?_
    · intro r hr'
      have hrcs := (List.mem_filter.mp hr').1
      have hroot : truthyParent r = false := by
        simpa using (List.mem_filter.mp hr').2
      exact count_nodeIds_le_one hu hrcs (chainLen_root (u := 0) hroot) hx
    · intro r1 h1 r2 h2 hp1 hp2
      have hr1cs := (List.mem_filter.mp h1).1
      have hroot1 : truthyParent r1 = false := by
        simpa using (List.mem_filter.mp h1).2
      have hr2cs := (List.mem_filter.mp h2).1
      have hroot2 : truthyParent r2 = false := by
        simpa using (List.mem_filter.mp h2).2
      have hd1 : Descends cs x r1 := by
        by_contra hnd
        have := count_nodeIds_zero hu (f := cs.length) hr1cs
          (chainLen_root (u := 0) hroot1) hx hnd
        omega
      have hd2 : Descends cs x r2 := by
        by_contra hnd
        have := count_nodeIds_zero hu (f := cs.length) hr2cs
          (chainLen_root (u := 0) hroot2) hx hnd
        omega
      obtain ⟨m1, hm1⟩ := hd1
      obtain ⟨m2, hm2⟩ := hd2
      obtain ⟨fx, hfx⟩ := grounded_of_descends hm1 (chainLen_root (u := 0) hroot1)
      obtain ⟨hle2, f2', hf2'⟩ := chainLen_ancestor hfx hm2
      have he2 := chainLen_unique hf2' (chainLen_root (u := 0) hroot2)
      have hm12 : m1 = m2 := by omega
      rw [hm12, hm2] at hm1
      exact (Option.some.inj hm1).symm
  · have hz : ((cs.filter (fun c => !truthyParent c)).map
        (fun r => (nodeIds (buildNode cs cs.length r)).count a)).sum = 0 := by
      refine List.sum_eq_zero ?_
      intro n hn
      obtain ⟨r, hr', rfl⟩ := List.mem_map.mp hn
      rw [List.count_eq_zero]
      intro hmem
      obtain ⟨x, hx, hxa⟩ := nodeIds_sub (List.mem_filter.mp hr').1 a hmem
      exact hex ⟨x, hx, hxa⟩
    rw [hz]
    omega

/-- Witness for C5 at the four-comment scenario of the spec. -/
theorem buildCommentTree_no_duplicates_example :
    ((scenario1.map Comment.id).Nodup)
    ∧ ∀ a : Int, (forestIds (buildCommentTree scenario1)).count a ≤ 1 :=
  ⟨by decide, buildCommentTree_no_duplicates (by decide)⟩

/-- C2 corrected: a comment is a root of the forest exactly when its
parent_comment_id is falsy (null or 0); a comment whose truthy parent id
resolves to no input comment is dropped from the forest entirely rather
than promoted to a root. -/
theorem root_iff_falsy {cs : List Comment} (hu : (cs.map Comment.id).Nodup) :
    (∀ c ∈ cs, (c.id ∈ (buildCommentTree cs).map (fun t => t.comment.id)
        ↔ truthyParent c = false))
    ∧ (∀ c ∈ cs, truthyParent c = true →
        (∀ p, c.parent_comment_id = some p → mapLookup cs p = none) →
        c.id ∉ forestIds (buildCommentTree cs)) := by
  constructor
  · intro c hc
    rw [roots_ids hu]
    constructor
    · intro hmem
      obtain ⟨z, hz, hzc⟩ := List.mem_map.mp hmem
      have hzcs := (List.mem_filter.mp hz).1
      have hzroot : truthyParent z = false := by
        simpa using (List.mem_filter.mp hz).2
      rwa [ids_injOn hu hzcs hc hzc] at hzroot
    · intro hfalsy
      exact List.mem_map_of_mem Comment.id (List.mem_filter.mpr ⟨hc, by simp [hfalsy]⟩)
  · intro c hc ht hnores
    have hpo : parentOf cs c = none := by
      obtain ⟨p, hp, h0⟩ := truthyParent_iff.mp ht
      unfold parentOf
      rw [hp]
      simp [h0, hnores p hp]
    refine List.count_eq_zero.mp ?_
    rw [count_forest hu]
    refine List.sum_eq_zero ?_
    intro n hn
    obtain ⟨r, hr', rfl⟩ := List.mem_map.mp hn
    have hrcs := (List.mem_filter.mp hr').1
    have hroot : truthyParent r = false := by
      simpa using (List.mem_filter.mp hr').2
    refine count_nodeIds_zero hu hrcs (chainLen_root (u := 0) hroot) hc ?_
    rintro ⟨m, hm⟩
    cases m with
    | zero =>
      injection hm with hm
      rw [← hm] at hroot
      rw [ht] at hroot
      cases hroot
    | succ m =>
      rw [ancestorAt_succ, hpo] at hm
      simp at hm

/-- Input exercising both parts of the corrected C2: a falsy-parent root
and an orphan with an unresolved parent id 999. -/
def exOrphanPair : List Comment := [mkComment 1 none, cmtOrphan]

/-- Witness for the corrected C2. -/
theorem root_iff_falsy_example :
    ((exOrphanPair.map Comment.id).Nodup)
    ∧ ((mkComment 1 none).id ∈ (buildCommentTree exOrphanPair).map (fun t => t.comment.id)
        ↔ truthyParent (mkComment 1 none) = false)
    ∧ cmtOrphan.id ∉ forestIds (buildCommentTree exOrphanPair) :=
  ⟨by decide,
   (root_iff_falsy (by decide)).1 (mkComment 1 none) (by decide),
   (root_iff_falsy (by decide)).2 cmtOrphan (by decide) (by decide)
     (fun p hp => by
        injection hp with h
        rw [← h]
        rfl)⟩

lemma inv_subtree {cs : List Comment} (hu : (cs.map Comment.id).Nodup) :
    ∀ {s t : CommentNode}, Subtree s t →
      ∀ {c : Comment} {f0 k : Nat}, c ∈ cs → chainLen cs f0 c = some k →
        k < cs.length → t = buildNode cs (cs.length - k) c →
      ∃ (c2 : Comment) (f2 k2 : Nat), c2 ∈ cs ∧ chainLen cs f2 c2 = some k2
        ∧ k2 < cs.length ∧ s = buildNode cs (cs.length - k2) c2 := by
  intro s t hsub
  induction hsub with
  | refl =>
    intro c f0 k hc hk hlt hteq
    exact ⟨c, f0, k, hc, hk, hlt, hteq⟩
  | step hmem h ih =>
    intro c f0 k hc hk hlt hteq
    subst hteq
    obtain ⟨d, hd⟩ : ∃ d, cs.length - k = d + 1 := ⟨cs.length - k - 1, by omega⟩
    rw [hd] at hmem
    rw [show (buildNode cs (d+1) c).children
        = (childComments cs c.id).map (buildNode cs d) from rfl] at hmem
    obtain ⟨y, hy, rfl⟩ := List.mem_map.mp hmem
    have hycs := mem_cs_of_childComments hy
    have hky : chainLen cs (f0+1) y = some (k+1) := chainLen_child hu hc hk hy
    have hklty : k+1 < cs.length := chainLen_lt_length hycs hky
    refine ih hycs hky hklty ?_
    have hdk : d = cs.length - (k+1) := by omega
    rw [hdk]

lemma inv_of_inForest {cs : List Comment} (hu : (cs.map Comment.id).Nodup)
    {t : CommentNode} (ht : InForest t (buildCommentTree cs)) :
    ∃ (c : Comment) (f0 k : Nat), c ∈ cs ∧ chainLen cs f0 c = some k
      ∧ k < cs.length ∧ t = buildNode cs (cs.length - k) c := by
  obtain ⟨t0, ht0, hsub⟩ := ht
  rw [buildCommentTree_eq hu] at ht0
  obtain ⟨r, hr', hteq⟩ := List.mem_map.mp ht0
  have hrcs := (List.mem_filter.mp hr').1
  have hroot : truthyParent r = false := by
    simpa using (List.mem_filter.mp hr').2
  have hkr : chainLen cs 1 r = some 0 := chainLen_root hroot
  have hlt : (0:Nat) < cs.length := chainLen_lt_length hrcs hkr
  exact inv_subtree hu hsub hrcs hkr hlt
    (by rw [Nat.sub_zero]; exact hteq.symm)

lemma children_ids_of_inForest {cs : List Comment} (hu : (cs.map Comment.id).Nodup)
    {t : CommentNode} (ht : InForest t (buildCommentTree cs)) :
    t.children.map (fun s => s.comment.id)
      = (cs.filter (fun c => truthyParent c
          && c.parent_comment_id == some t.comment.id)).map Comment.id := by
  obtain ⟨c, f0, k, hc, hk, hlt, rfl⟩ := inv_of_inForest hu ht
  obtain ⟨d, hd⟩ : ∃ d, cs.length - k = d + 1 := ⟨cs.length - k - 1, by omega⟩
  rw [hd]
  simp only [buildNode_comment]
  rw [show (buildNode cs (d+1) c).children
      = (childComments cs c.id).map (buildNode cs d) from rfl]
  rw [List.map_map]
  simp only [Function.comp_def, buildNode_comment]
  rw [childComments_eq hu hc]

/-- C4: roots appear in input order (they are the falsy-parent comments,
filtered in input order), and for every node anywhere in the forest its
children are exactly the input comments whose truthy parent id equals the
node id, in input order - stable grouping, never re-sorted. -/
theorem buildCommentTree_order {cs : List Comment} (hu : (cs.map Comment.id).Nodup) :
    ((buildCommentTree cs).map (fun t => t.comment.id)
      = (cs.filter (fun c => !truthyParent c)).map Comment.id)
    ∧ ∀ t, InForest t (buildCommentTree cs) →
        t.children.map (fun s => s.comment.id)
          = (cs.filter (fun c => truthyParent c
              && c.parent_comment_id == some t.comment.id)).map Comment.id :=
  ⟨roots_ids hu, fun _ ht => children_ids_of_inForest hu ht⟩

/-- Witness for C4 at the four-comment scenario of the spec. -/
theorem buildCommentTree_order_example :
    ((scenario1.map Comment.id).Nodup)
    ∧ ((buildCommentTree scenario1).map (fun t => t.comment.id)
        = (scenario1.filter (fun c => !truthyParent c)).map Comment.id)
    ∧ ∀ t, InForest t (buildCommentTree scenario1) →
        t.children.map (fun s => s.comment.id)
          = (scenario1.filter (fun c => truthyParent c
              && c.parent_comment_id == some t.comment.id)).map Comment.id :=
  ⟨by decide, (buildCommentTree_order (by decide)).1,
   (buildCommentTree_order (by decide)).2⟩

/-- C9: a comment whose parent_comment_id is 0 is classified as a root
(0 is falsy), and it never occurs among the children of any node of the
forest, even when a comment with id 0 is present in the input. -/
theorem zero_parent_is_root {cs : List Comment} (hu : (cs.map Comment.id).Nodup)
    {c : Comment} (hc : c ∈ cs) (hp : c.parent_comment_id = some 0) :
    c.id ∈ (buildCommentTree cs).map (fun t => t.comment.id)
    ∧ ∀ t, InForest t (buildCommentTree cs) →
        c.id ∉ t.children.map (fun s => s.comment.id) := by
  have hfalsy : truthyParent c = false := by
    unfold truthyParent
    rw [hp]
    rfl
  constructor
  · rw [roots_ids hu]
    exact List.mem_map_of_mem Comment.id (List.mem_filter.mpr ⟨hc, by simp [hfalsy]⟩)
  · intro t ht hmem
    rw [children_ids_of_inForest hu ht] at hmem
    obtain ⟨z, hz, hzc⟩ := List.mem_map.mp hmem
    have hzcs := (List.mem_filter.mp hz).1
    have hzcond := (List.mem_filter.mp hz).2
    simp only [Bool.and_eq_true] at hzcond
    have hzt : truthyParent z = true := hzcond.1
    rw [ids_injOn hu hzcs hc hzc] at hzt
    rw [hfalsy] at hzt
    cases hzt

/-- Input with a comment of id 0 present and a comment citing parent 0. -/
def exZero : List Comment := [mkComment 0 none, mkComment 3 (some 0)]

/-- Witness for C9: parent id 0 is a root even though id 0 exists. -/
theorem zero_parent_is_root_example :
    ((exZero.map Comment.id).Nodup) ∧ ((0:Int) ∈ exZero.map Comment.id)
    ∧ ((mkComment 3 (some 0)).id
        ∈ (buildCommentTree exZero).map (fun t => t.comment.id))
    ∧ ∀ t, InForest t (buildCommentTree exZero) →
        (mkComment 3 (some 0)).id ∉ t.children.map (fun s => s.comment.id) :=
  ⟨by decide, by decide,
   (zero_parent_is_root (by decide) (by decide) rfl).1,
   (zero_parent_is_root (by decide) (by decide) rfl).2⟩

/-- C3 corrected: the code agrees with the reference two-pass algorithm of
the spec on every input in which no comment carries parent id 0 (where the
code and the spec disagree on truthiness versus presence) and every present
parent id resolves in the lookup (where the spec promotes and the code
drops). -/
theorem buildCommentTree_matches_reference {cs : List Comment}
    (h0 : noZeroParent cs = true) (hres : allParentsResolve cs = true) :
    buildCommentTree cs = specBuildCommentTree cs := by
  have h0' : ∀ c ∈ cs, c.parent_comment_id ≠ some 0 := by
    intro c hc
    have := List.all_eq_true.mp h0 c hc
    simpa using this
  have hres' : ∀ c ∈ cs, ∀ p, c.parent_comment_id = some p →
      (mapLookup cs p).isSome = true := by
    intro c hc p hp
    have := List.all_eq_true.mp hres c hc
    rw [hp] at this
    simpa using this
  have hresolve_eq : ∀ c ∈ cs, specParentResolves cs c = truthyParent c := by
    intro c hc
    unfold specParentResolves truthyParent
    cases hp : c.parent_comment_id with
    | none => rfl
    | some p =>
      have hne : p ≠ 0 := by
        intro h
        exact h0' c hc (by rw [hp, h])
      show (mapLookup cs p).isSome = (p != 0)
      rw [hres' c hc p hp]
      exact (bne_iff_ne.mpr hne).symm
  have hchild_eq : ∀ p : Int, specChildComments cs p = childComments cs p := by
    intro p
    unfold specChildComments childComments
    by_cases hiso : (mapLookup cs p).isSome
    · rw [if_pos hiso]
      congr 1
      refine List.filter_congr ?_
      intro x hx
      rw [hresolve_eq x hx]
    · rw [if_neg hiso]
      have hnil : cs.filter
          (fun x => specParentResolves cs x && x.parent_comment_id == some p) = [] := by
        rw [List.filter_eq_nil_iff]
        intro x hx hcond
        simp only [Bool.and_eq_true, beq_iff_eq] at hcond
        obtain ⟨hr', hpx⟩ := hcond
        unfold specParentResolves at hr'
        rw [hpx] at hr'
        exact hiso (by simpa using hr')
      rw [hnil]
      rfl
  have hnode_eq : ∀ (f : Nat) (c : Comment), specBuildNode cs f c = buildNode cs f c := by
    intro f
    induction f with
    | zero => intro c; rfl
    | succ f ih =>
      intro c
      rw [show specBuildNode cs (f+1) c
            = .mk c ((specChildComments cs c.id).map (specBuildNode cs f)) from rfl,
          show buildNode cs (f+1) c
            = .mk c ((childComments cs c.id).map (buildNode cs f)) from rfl,
          hchild_eq c.id]
      congr 1
      exact List.map_congr_left (fun y _ => ih y)
  unfold buildCommentTree specBuildCommentTree
  rw [show cs.filter (fun c => !specParentResolves cs c)
        = cs.filter (fun c => !truthyParent c)
      from List.filter_congr (fun x hx => by rw [hresolve_eq x hx])]
  refine List.map_congr_left ?_
  intro c hc
  rw [hnode_eq]

/-- Witness for the corrected C3 at the four-comment scenario of the spec.
-/
theorem buildCommentTree_matches_reference_example :
    (noZeroParent scenario1 = true ∧ allParentsResolve scenario1 = true)
    ∧ buildCommentTree scenario1 = specBuildCommentTree scenario1 :=
  ⟨⟨by decide, by decide⟩, buildCommentTree_matches_reference (by decide) (by decide)⟩

end CommentTreeSpec
